import Mathlib

/-!
# Verification of the enexdump export writer (`src/enexdump.js`)

Shallow embedding of the core logic of the export writer: filename
normalization (`normalizeFilename`), tag formatting (`formatTags`),
attachment materialization (the attachment loop of `dump`, factored as
`materialize` as in the design document), header synthesis (`buildHeader`)
and the per-note / whole-run drivers (`dumpNote`, `dumpAll`).

Strings are modelled as `List Char`, binary buffers as `List Nat`, and the
output directory tree as an association list from paths to file data.
The SHA-256 digest used by the conflict check is modelled as an abstract
hash function into a type with decidable equality; the collision-resistance
the design relies on appears as an injectivity hypothesis where needed.
-/

/-- Strings of the program (JS strings), modelled as lists of characters. -/
abbrev Str : Type := List Char

/-- Binary buffers (JS `Buffer`), modelled as lists of byte values. -/
abbrev Bytes : Type := List Nat

/-- The characters of a Lean string literal, used to transcribe the string
literals of the source. -/
def chars (s : String) : Str := s.data

/-- Contents of a file in the output tree: either a binary attachment
buffer or the text of a note file. -/
inductive FileData where
  | bin (content : Bytes)
  | text (content : Str)
deriving DecidableEq

/-- The output directory tree, as an association list from full paths to
file contents.  A write shadows earlier entries for the same path. -/
abbrev FS : Type := List (Str × FileData)

/-- `fs.existsSync` / `fs.readFileSync`: the current content at a path. -/
def fsLookup : FS → Str → Option FileData
  | [], _ => none
  | (p, d) :: rest, q => if p = q then some d else fsLookup rest q

/-- `fs.writeFileSync`: (over)write the content at a path. -/
def fsWrite (fs : FS) (p : Str) (d : FileData) : FS := (p, d) :: fs

/-- `path.join` of two segments. -/
def pathJoin (a b : Str) : Str := a ++ chars "/" ++ b

/-- The fixed 10-byte sentinel (`invalidBuffer` in the source) marking an
attachment whose content was already exported out of band. -/
def invalidBuffer : Bytes := [0x00, 0x01, 0x02, 0x03, 0x04, 0x05, 0x06, 0x07, 0x08, 0x09]

/-- Outcome of materializing one attachment: skip the sentinel, write the
content, or abort with the conflict error message. -/
inductive MatResult where
  | skip
  | write
  | conflict (msg : Str)
deriving DecidableEq

/-- The error message thrown on an attachment conflict:
`Attachment at path "<path>" already exists.` -/
def conflictMessage (p : Str) : Str :=
  chars "Attachment at path \"" ++ p ++ chars "\" already exists."

/-- One iteration of the attachment loop of `dump` (lines 70-87 of the
source), the `materialize` operation of the design document.  The SHA-256
digest comparison is modelled by an abstract `hash` into a type with
decidable equality. -/
def materialize {H : Type} [DecidableEq H] (hash : FileData → H)
    (fs : FS) (p : Str) (content : Bytes) : MatResult × FS :=
  if content = invalidBuffer then
    (MatResult.skip, fs)
  else
    match fsLookup fs p with
    | some old =>
        if hash (FileData.bin content) = hash old then
          (MatResult.write, fsWrite fs p (FileData.bin content))
        else
          (MatResult.conflict (conflictMessage p), fs)
    | none => (MatResult.write, fsWrite fs p (FileData.bin content))

/-- JS `String.prototype.replace` with a single-character string pattern:
replaces only the FIRST occurrence of `pat` by `rep`. -/
def replaceFirst (pat : Char) (rep : Str) : Str → Str
  | [] => []
  | c :: rest => if c = pat then rep ++ rest else c :: replaceFirst pat rep rest

/-- `normalizeFilename` of the source (lines 40-46): the chain of five
`.replace` calls, each replacing the first occurrence only. -/
def normalizeFilename (s : Str) : Str :=
  replaceFirst ',' (chars "%2c")
    (replaceFirst ')' (chars "%29")
      (replaceFirst '(' (chars "%28")
        (replaceFirst ']' (chars "%5d")
          (replaceFirst '[' (chars "%5b") s))))

/-- JS `Array.prototype.join` with a string separator. -/
def joinStr (sep : Str) : List Str → Str
  | [] => []
  | [s] => s
  | s :: ss => s ++ sep ++ joinStr sep ss

/-- The error message thrown by `formatTags` when a tag contains a comma:
`Invalid tag for ["<tag1>", "<tag2>", ...]`. -/
def tagsErrorMessage (tags : List Str) : Str :=
  chars "Invalid tag for [\"" ++ joinStr (chars "\", \"") tags ++ chars "\"]"

/-- `formatTags` of the source (lines 49-54): rejects any tag containing a
comma, otherwise renders the bracketed comma-separated list. -/
def formatTags (tags : List Str) : Except Str Str :=
  if tags.any (fun tag => ',' ∈ tag) then
    Except.error (tagsErrorMessage tags)
  else
    Except.ok (chars "[" ++ joinStr (chars ", ") tags ++ chars "]")

/-- An attachment of a note: a display name and a binary content buffer. -/
structure Attachment where
  name : Str
  content : Bytes
deriving DecidableEq

/-- A decoded note as delivered by the archive parser.  `created` and
`modified` hold the `toISOString()` rendering of the timestamps (the
`Date` serialization itself is done by the JS runtime); `body` is
`note.content.toString()`. -/
structure Note where
  title : Str
  created : Str
  modified : Str
  tags : List Str
  attachments : List Attachment
  body : Str
deriving DecidableEq

/-- Header synthesis (lines 91-101 of the source), the `buildHeader`
operation of the design document: the four base fields, the conditional
`attachments:` field, joined by newlines between `---` delimiters.
Propagates the `formatTags` error. -/
def buildHeader (note : Note) : Except Str Str :=
  match formatTags note.tags with
  | Except.error e => Except.error e
  | Except.ok tagsStr =>
      let base := [chars "title: " ++ note.title,
                   chars "created: '" ++ note.created ++ chars "'",
                   chars "modified: '" ++ note.modified ++ chars "'",
                   chars "tags: " ++ tagsStr]
      let fields :=
        if note.attachments.length ≠ 0 then
          base ++ [chars "attachments: [" ++
                   joinStr (chars ", ")
                     (note.attachments.map (fun a => normalizeFilename a.name)) ++
                   chars "]"]
        else base
      Except.ok (chars "---" ++ chars "\n" ++ joinStr (chars "\n") fields ++
                 chars "\n" ++ chars "---")

/-- The attachment loop of `dump` (lines 69-87): materialize each
attachment of the note in order into `attachDir`, aborting on the first
conflict. -/
def materializeAll {H : Type} [DecidableEq H] (hash : FileData → H)
    (attachDir : Str) (fs : FS) : List Attachment → Except Str FS
  | [] => Except.ok fs
  | a :: rest =>
      match materialize hash fs (pathJoin attachDir (normalizeFilename a.name)) a.content with
      | (MatResult.skip, fs') => materializeAll hash attachDir fs' rest
      | (MatResult.write, fs') => materializeAll hash attachDir fs' rest
      | (MatResult.conflict msg, _) => Except.error msg

/-- The full per-note callback `dump` (lines 60-110): materialize the
attachments into `<outDir>/attachments`, build the header, and write
`<outDir>/notes/<title>.md` with the header, a blank line and the body. -/
def dumpNote {H : Type} [DecidableEq H] (hash : FileData → H)
    (outDir : Str) (fs : FS) (note : Note) : Except Str FS :=
  match materializeAll hash (pathJoin outDir (chars "attachments")) fs note.attachments with
  | Except.error e => Except.error e
  | Except.ok fs₁ =>
      match buildHeader note with
      | Except.error e => Except.error e
      | Except.ok header =>
          Except.ok (fsWrite fs₁
            (pathJoin (pathJoin outDir (chars "notes")) (note.title ++ chars ".md"))
            (FileData.text (header ++ chars "\n\n" ++ note.body)))

/-- The whole run: the archive parser invokes `dump` once per note, in
order; an error aborts the run. -/
def dumpAll {H : Type} [DecidableEq H] (hash : FileData → H)
    (outDir : Str) (fs : FS) : List Note → Except Str FS
  | [] => Except.ok fs
  | n :: rest =>
      match dumpNote hash outDir fs n with
      | Except.ok fs' => dumpAll hash outDir fs' rest
      | Except.error e => Except.error e

/-- Split a string into its lines at newline characters (used to state
which lines the synthesized header consists of). -/
def splitLines : Str → List Str
  | [] => [[]]
  | c :: rest =>
      if c = '\n' then [] :: splitLines rest
      else
        match splitLines rest with
        | [] => [[c]]
        | l :: ls => (c :: l) :: ls

theorem fsLookup_write_self (fs : FS) (p : Str) (d : FileData) :
    fsLookup (fsWrite fs p d) p = some d := by
  simp [fsWrite, fsLookup]

theorem fsLookup_write_ne (fs : FS) (p q : Str) (d : FileData) (h : p ≠ q) :
    fsLookup (fsWrite fs p d) q = fsLookup fs q := by
  simp [fsWrite, fsLookup, h]

/-- Claim C3: an attachment whose content is byte-for-byte the 10-byte
sentinel is skipped with no filesystem interaction, whatever the state of
the target path; and the match is by exact byte equality: any other
content is never skipped. -/
theorem materialize_sentinel_skip {H : Type} [DecidableEq H] (hash : FileData → H)
    (fs : FS) (p : Str) :
    materialize hash fs p invalidBuffer = (MatResult.skip, fs) ∧
    ∀ c : Bytes, c ≠ invalidBuffer → (materialize hash fs p c).1 ≠ MatResult.skip := by
  refine ⟨by simp [materialize], ?_⟩
  intro c hc
  simp only [materialize, if_neg hc]
  cases fsLookup fs p with
  | none => simp
  | some old =>
      by_cases h : hash (FileData.bin c) = hash old <;> simp [h]

theorem materialize_sentinel_skip_witness :
    materialize id [(chars "a", FileData.bin [5])] (chars "a") invalidBuffer =
      (MatResult.skip, [(chars "a", FileData.bin [5])]) ∧
    (materialize id [(chars "a", FileData.bin [5])] (chars "a") [5]).1 ≠ MatResult.skip :=
  ⟨(materialize_sentinel_skip id [(chars "a", FileData.bin [5])] (chars "a")).1,
   (materialize_sentinel_skip id [(chars "a", FileData.bin [5])] (chars "a")).2 [5] (by decide)⟩

/-- Claim C4: writing the same non-sentinel content twice to the same
fresh path returns `Write` both times (never `Conflict`), and afterwards
the file holds the original content. -/
theorem materialize_idempotent_rewrite {H : Type} [DecidableEq H] (hash : FileData → H)
    (fs : FS) (p : Str) (c : Bytes) (hc : c ≠ invalidBuffer)
    (hfresh : fsLookup fs p = none) :
    (materialize hash fs p c).1 = MatResult.write ∧
    (materialize hash (materialize hash fs p c).2 p c).1 = MatResult.write ∧
    fsLookup (materialize hash (materialize hash fs p c).2 p c).2 p =
      some (FileData.bin c) := by
  have h1 : materialize hash fs p c = (MatResult.write, fsWrite fs p (FileData.bin c)) := by
    simp [materialize, hc, hfresh]
  have h2 : materialize hash (fsWrite fs p (FileData.bin c)) p c =
      (MatResult.write, fsWrite (fsWrite fs p (FileData.bin c)) p (FileData.bin c)) := by
    simp [materialize, hc, fsLookup_write_self]
  rw [h1]
  simp only [h2]
  exact ⟨trivial, trivial, fsLookup_write_self _ _ _⟩

theorem materialize_idempotent_rewrite_witness :
    (materialize id ([] : FS) (chars "a") [7]).1 = MatResult.write ∧
    (materialize id (materialize id ([] : FS) (chars "a") [7]).2 (chars "a") [7]).1 =
      MatResult.write ∧
    fsLookup (materialize id (materialize id ([] : FS) (chars "a") [7]).2 (chars "a") [7]).2
      (chars "a") = some (FileData.bin [7]) :=
  materialize_idempotent_rewrite id [] (chars "a") [7] (by decide) rfl

/-- Claim C2: for the same fresh path and two differing non-sentinel
contents, the first call writes, the second call returns `Conflict` with
the error message naming the colliding path, performs no write (the tree
is returned unchanged), and the content from the first call is intact. -/
theorem materialize_conflict_second_call {H : Type} [DecidableEq H] (hash : FileData → H)
    (hinj : Function.Injective hash) (fs : FS) (p : Str) (c₁ c₂ : Bytes)
    (hfresh : fsLookup fs p = none) (h₁ : c₁ ≠ invalidBuffer) (h₂ : c₂ ≠ invalidBuffer)
    (hne : c₁ ≠ c₂) :
    (materialize hash fs p c₁).1 = MatResult.write ∧
    materialize hash (materialize hash fs p c₁).2 p c₂ =
      (MatResult.conflict (conflictMessage p), (materialize hash fs p c₁).2) ∧
    fsLookup (materialize hash fs p c₁).2 p = some (FileData.bin c₁) ∧
    p <:+: conflictMessage p := by
  have h1 : materialize hash fs p c₁ = (MatResult.write, fsWrite fs p (FileData.bin c₁)) := by
    simp [materialize, h₁, hfresh]
  have hhash : hash (FileData.bin c₂) ≠ hash (FileData.bin c₁) := fun h =>
    hne (FileData.bin.inj (hinj h)).symm
  have h2 : materialize hash (fsWrite fs p (FileData.bin c₁)) p c₂ =
      (MatResult.conflict (conflictMessage p), fsWrite fs p (FileData.bin c₁)) := by
    simp [materialize, h₂, fsLookup_write_self, hhash]
  rw [h1]
  exact ⟨rfl, h2, fsLookup_write_self _ _ _,
    ⟨chars "Attachment at path \"", chars "\" already exists.", rfl⟩⟩

theorem materialize_conflict_second_call_witness :
    (materialize id ([] : FS) (chars "a") [1]).1 = MatResult.write ∧
    materialize id (materialize id ([] : FS) (chars "a") [1]).2 (chars "a") [2] =
      (MatResult.conflict (conflictMessage (chars "a")),
       (materialize id ([] : FS) (chars "a") [1]).2) ∧
    fsLookup (materialize id ([] : FS) (chars "a") [1]).2 (chars "a") =
      some (FileData.bin [1]) ∧
    chars "a" <:+: conflictMessage (chars "a") :=
  materialize_conflict_second_call id Function.injective_id [] (chars "a") [1] [2]
    rfl (by decide) (by decide) (by decide)

/-- Claim C5 (defect witnessed): `normalizeFilename` replaces only the
first occurrence of each unsafe character, so on the name `[[` it yields
`%5b[`, which still contains a raw `[` rather than the mandated
`%5b%5b`. -/
theorem normalizeFilename_first_occurrence_only :
    normalizeFilename (chars "[[") = chars "%5b[" ∧
    '[' ∈ normalizeFilename (chars "[[") ∧
    normalizeFilename (chars "[[") ≠ chars "%5b%5b" := by decide

/-- Claim C6 (defect witnessed): on the name `[[` the output of
`normalizeFilename` retains a raw `[` and re-normalizing changes it again,
so the function is not idempotent on its own image. -/
theorem normalizeFilename_not_idempotent :
    normalizeFilename (normalizeFilename (chars "[[")) ≠ normalizeFilename (chars "[[") ∧
    '[' ∈ normalizeFilename (chars "[[") := by decide

theorem joinStr_cons_cons (sep a b : Str) (t : List Str) :
    joinStr sep (a :: b :: t) = a ++ sep ++ joinStr sep (b :: t) := rfl

theorem mem_joinStr_within (sep x : Str) (xs : List Str) (hx : x ∈ xs) :
    x <:+: joinStr sep xs := by
  induction xs with
  | nil => cases hx
  | cons s ss ih =>
      cases ss with
      | nil =>
          have hxs : x = s := by simpa using hx
          subst hxs
          exact List.infix_refl x
      | cons b t =>
          rw [joinStr_cons_cons]
          rcases List.mem_cons.mp hx with h | h
          · subst h
            exact ((List.prefix_append x (sep ++ joinStr sep (b :: t))).trans
              (by rw [List.append_assoc])).isInfix
          · exact (ih h).trans ⟨s ++ sep, [], by simp⟩

/-- Claim C7: building the header for a note one of whose tags contains a
comma fails with the tag-format error, whose message contains every tag of
the offending tag set. -/
theorem buildHeader_comma_tag_error (note : Note)
    (h : ∃ t ∈ note.tags, ',' ∈ t) :
    buildHeader note = Except.error (tagsErrorMessage note.tags) ∧
    ∀ t ∈ note.tags, t <:+: tagsErrorMessage note.tags := by
  have hany : note.tags.any (fun tag => ',' ∈ tag) = true := by
    rw [List.any_eq_true]
    obtain ⟨t, ht, hc⟩ := h
    exact ⟨t, ht, by simpa using hc⟩
  have hfmt : formatTags note.tags = Except.error (tagsErrorMessage note.tags) := by
    simp [formatTags, hany]
  refine ⟨by simp [buildHeader, hfmt], ?_⟩
  intro t ht
  exact (mem_joinStr_within _ t _ ht).trans
    ⟨chars "Invalid tag for [\"", chars "\"]", rfl⟩

theorem buildHeader_comma_tag_error_witness :
    buildHeader { title := chars "T", created := chars "C", modified := chars "M",
                  tags := [chars "x,y", chars "z"], attachments := [],
                  body := chars "B" } =
      Except.error (tagsErrorMessage [chars "x,y", chars "z"]) ∧
    ∀ t ∈ [chars "x,y", chars "z"],
      t <:+: tagsErrorMessage [chars "x,y", chars "z"] :=
  buildHeader_comma_tag_error
    { title := chars "T", created := chars "C", modified := chars "M",
      tags := [chars "x,y", chars "z"], attachments := [], body := chars "B" }
    ⟨chars "x,y", by decide, by decide⟩

/-- Claim C9: the end-to-end run on the single test note produces exactly
the file `out/notes/Test.md` with the specified five-line front matter,
a blank line and the body. -/
theorem dumpNote_end_to_end :
    dumpNote id (chars "out") []
      { title := chars "Test",
        created := chars "2020-01-01T00:00:00.000Z",
        modified := chars "2020-01-01T00:00:00.000Z",
        tags := [chars "x", chars "y"],
        attachments := [],
        body := chars "hello" } =
    Except.ok [(chars "out/notes/Test.md",
      FileData.text (chars "---\ntitle: Test\ncreated: '2020-01-01T00:00:00.000Z'\nmodified: '2020-01-01T00:00:00.000Z'\ntags: [x, y]\n---\n\nhello"))] := by
  rfl

theorem attachments_notes_paths_ne (outDir x y : Str) :
    pathJoin (pathJoin outDir (chars "attachments")) x ≠
    pathJoin (pathJoin outDir (chars "notes")) y := by
  intro h
  simp only [pathJoin, List.append_assoc] at h
  have h' := List.append_cancel_left (List.append_cancel_left h)
  have hx : (chars "attachments" ++ (chars "/" ++ x)).head? = some 'a' := rfl
  rw [h'] at hx
  have hy : (chars "notes" ++ (chars "/" ++ y)).head? = some 'n' := rfl
  rw [hy] at hx
  exact absurd hx (by decide)

theorem fsLookup_materializeAll_preserved {H : Type} [DecidableEq H] (hash : FileData → H)
    (hinj : Function.Injective hash) (attachDir : Str) (atts : List Attachment)
    (fs fs' : FS) (q : Str) (c : Bytes)
    (hq : fsLookup fs q = some (FileData.bin c))
    (hrun : materializeAll hash attachDir fs atts = Except.ok fs') :
    fsLookup fs' q = some (FileData.bin c) := by
  induction atts generalizing fs with
  | nil =>
      simp only [materializeAll, Except.ok.injEq] at hrun
      exact hrun ▸ hq
  | cons b rest ih =>
      simp only [materializeAll] at hrun
      by_cases hb : b.content = invalidBuffer
      · rw [show materialize hash fs (pathJoin attachDir (normalizeFilename b.name)) b.content
            = (MatResult.skip, fs) by simp [materialize, hb]] at hrun
        exact ih fs hq hrun
      · rcases he : fsLookup fs (pathJoin attachDir (normalizeFilename b.name)) with _ | old
        · rw [show materialize hash fs (pathJoin attachDir (normalizeFilename b.name)) b.content
              = (MatResult.write, fsWrite fs (pathJoin attachDir (normalizeFilename b.name))
                  (FileData.bin b.content)) by simp [materialize, hb, he]] at hrun
          have hne : pathJoin attachDir (normalizeFilename b.name) ≠ q := by
            intro hpq
            rw [hpq, hq] at he
            cases he
          exact ih _ (by rw [fsLookup_write_ne _ _ _ _ hne]; exact hq) hrun
        · by_cases hh : hash (FileData.bin b.content) = hash old
          · rw [show materialize hash fs (pathJoin attachDir (normalizeFilename b.name)) b.content
                = (MatResult.write, fsWrite fs (pathJoin attachDir (normalizeFilename b.name))
                    (FileData.bin b.content)) by simp [materialize, hb, he, hh]] at hrun
            by_cases hpq : pathJoin attachDir (normalizeFilename b.name) = q
            · have hold : old = FileData.bin c := by
                rw [hpq, hq] at he
                exact (Option.some.inj he).symm
              have hbc : FileData.bin b.content = FileData.bin c := hinj (hold ▸ hh)
              refine ih _ ?_ hrun
              rw [hpq, fsLookup_write_self, hbc]
            · exact ih _ (by rw [fsLookup_write_ne _ _ _ _ hpq]; exact hq) hrun
          · rw [show materialize hash fs (pathJoin attachDir (normalizeFilename b.name)) b.content
                = (MatResult.conflict (conflictMessage (pathJoin attachDir (normalizeFilename b.name))), fs)
                by simp [materialize, hb, he, hh]] at hrun
            cases hrun

theorem fsLookup_materializeAll_recorded {H : Type} [DecidableEq H] (hash : FileData → H)
    (hinj : Function.Injective hash) (attachDir : Str) (atts : List Attachment)
    (fs fs' : FS) (a : Attachment) (ha : a ∈ atts) (hc : a.content ≠ invalidBuffer)
    (hrun : materializeAll hash attachDir fs atts = Except.ok fs') :
    fsLookup fs' (pathJoin attachDir (normalizeFilename a.name)) =
      some (FileData.bin a.content) := by
  induction atts generalizing fs with
  | nil => cases ha
  | cons b rest ih =>
      simp only [materializeAll] at hrun
      rcases List.mem_cons.mp ha with hab | harest
      · subst hab
        rcases he : fsLookup fs (pathJoin attachDir (normalizeFilename a.name)) with _ | old
        · rw [show materialize hash fs (pathJoin attachDir (normalizeFilename a.name)) a.content
              = (MatResult.write, fsWrite fs (pathJoin attachDir (normalizeFilename a.name))
                  (FileData.bin a.content)) by simp [materialize, hc, he]] at hrun
          exact fsLookup_materializeAll_preserved hash hinj attachDir rest _ fs' _ _
            (fsLookup_write_self _ _ _) hrun
        · by_cases hh : hash (FileData.bin a.content) = hash old
          · rw [show materialize hash fs (pathJoin attachDir (normalizeFilename a.name)) a.content
                = (MatResult.write, fsWrite fs (pathJoin attachDir (normalizeFilename a.name))
                    (FileData.bin a.content)) by simp [materialize, hc, he, hh]] at hrun
            exact fsLookup_materializeAll_preserved hash hinj attachDir rest _ fs' _ _
              (fsLookup_write_self _ _ _) hrun
          · rw [show materialize hash fs (pathJoin attachDir (normalizeFilename a.name)) a.content
                = (MatResult.conflict (conflictMessage (pathJoin attachDir (normalizeFilename a.name))), fs)
                by simp [materialize, hc, he, hh]] at hrun
            cases hrun
      · by_cases hb : b.content = invalidBuffer
        · rw [show materialize hash fs (pathJoin attachDir (normalizeFilename b.name)) b.content
              = (MatResult.skip, fs) by simp [materialize, hb]] at hrun
          exact ih fs harest hrun
        · rcases he : fsLookup fs (pathJoin attachDir (normalizeFilename b.name)) with _ | old
          · rw [show materialize hash fs (pathJoin attachDir (normalizeFilename b.name)) b.content
                = (MatResult.write, fsWrite fs (pathJoin attachDir (normalizeFilename b.name))
                    (FileData.bin b.content)) by simp [materialize, hb, he]] at hrun
            exact ih _ harest hrun
          · by_cases hh : hash (FileData.bin b.content) = hash old
            · rw [show materialize hash fs (pathJoin attachDir (normalizeFilename b.name)) b.content
                  = (MatResult.write, fsWrite fs (pathJoin attachDir (normalizeFilename b.name))
                      (FileData.bin b.content)) by simp [materialize, hb, he, hh]] at hrun
              exact ih _ harest hrun
            · rw [show materialize hash fs (pathJoin attachDir (normalizeFilename b.name)) b.content
                  = (MatResult.conflict (conflictMessage (pathJoin attachDir (normalizeFilename b.name))), fs)
                  by simp [materialize, hb, he, hh]] at hrun
              cases hrun

theorem fsLookup_dumpNote_preserved {H : Type} [DecidableEq H] (hash : FileData → H)
    (hinj : Function.Injective hash) (outDir : Str) (fs fs' : FS) (note : Note)
    (x : Str) (c : Bytes)
    (hq : fsLookup fs (pathJoin (pathJoin outDir (chars "attachments")) x) =
      some (FileData.bin c))
    (hrun : dumpNote hash outDir fs note = Except.ok fs') :
    fsLookup fs' (pathJoin (pathJoin outDir (chars "attachments")) x) =
      some (FileData.bin c) := by
  unfold dumpNote at hrun
  rcases hm : materializeAll hash (pathJoin outDir (chars "attachments")) fs note.attachments
      with e | fs₁
  · rw [hm] at hrun
    cases hrun
  · rw [hm] at hrun
    rcases hh : buildHeader note with e | header
    · rw [hh] at hrun
      cases hrun
    · rw [hh] at hrun
      have hfs₁ := fsLookup_materializeAll_preserved hash hinj _ _ fs fs₁ _ _ hq hm
      cases hrun
      rw [fsLookup_write_ne]
      · exact hfs₁
      · exact fun hp => attachments_notes_paths_ne outDir x _ hp.symm

theorem fsLookup_dumpNote_recorded {H : Type} [DecidableEq H] (hash : FileData → H)
    (hinj : Function.Injective hash) (outDir : Str) (fs fs' : FS) (note : Note)
    (a : Attachment) (ha : a ∈ note.attachments) (hc : a.content ≠ invalidBuffer)
    (hrun : dumpNote hash outDir fs note = Except.ok fs') :
    fsLookup fs' (pathJoin (pathJoin outDir (chars "attachments")) (normalizeFilename a.name)) =
      some (FileData.bin a.content) := by
  unfold dumpNote at hrun
  rcases hm : materializeAll hash (pathJoin outDir (chars "attachments")) fs note.attachments
      with e | fs₁
  · rw [hm] at hrun
    cases hrun
  · rw [hm] at hrun
    rcases hh : buildHeader note with e | header
    · rw [hh] at hrun
      cases hrun
    · rw [hh] at hrun
      have hfs₁ := fsLookup_materializeAll_recorded hash hinj _ _ fs fs₁ a ha hc hm
      cases hrun
      rw [fsLookup_write_ne]
      · exact hfs₁
      · exact fun hp => attachments_notes_paths_ne outDir (normalizeFilename a.name) _ hp.symm

theorem fsLookup_dumpAll_preserved {H : Type} [DecidableEq H] (hash : FileData → H)
    (hinj : Function.Injective hash) (outDir : Str) (notes : List Note)
    (fs fs' : FS) (x : Str) (c : Bytes)
    (hq : fsLookup fs (pathJoin (pathJoin outDir (chars "attachments")) x) =
      some (FileData.bin c))
    (hrun : dumpAll hash outDir fs notes = Except.ok fs') :
    fsLookup fs' (pathJoin (pathJoin outDir (chars "attachments")) x) =
      some (FileData.bin c) := by
  induction notes generalizing fs with
  | nil =>
      simp only [dumpAll, Except.ok.injEq] at hrun
      exact hrun ▸ hq
  | cons n rest ih =>
      simp only [dumpAll] at hrun
      rcases hd : dumpNote hash outDir fs n with e | fs₁
      · rw [hd] at hrun
        cases hrun
      · rw [hd] at hrun
        exact ih _ (fsLookup_dumpNote_preserved hash hinj outDir fs fs₁ n x c hq hd) hrun

theorem fsLookup_dumpAll_recorded {H : Type} [DecidableEq H] (hash : FileData → H)
    (hinj : Function.Injective hash) (outDir : Str) (notes : List Note)
    (fs fs' : FS) (n : Note) (a : Attachment)
    (hn : n ∈ notes) (ha : a ∈ n.attachments) (hc : a.content ≠ invalidBuffer)
    (hrun : dumpAll hash outDir fs notes = Except.ok fs') :
    fsLookup fs' (pathJoin (pathJoin outDir (chars "attachments")) (normalizeFilename a.name)) =
      some (FileData.bin a.content) := by
  induction notes generalizing fs with
  | nil => cases hn
  | cons m rest ih =>
      simp only [dumpAll] at hrun
      rcases hd : dumpNote hash outDir fs m with e | fs₁
      · rw [hd] at hrun
        cases hrun
      · rw [hd] at hrun
        rcases List.mem_cons.mp hn with hnm | hnrest
        · subst hnm
          exact fsLookup_dumpAll_preserved hash hinj outDir rest fs₁ fs' _ _
            (fsLookup_dumpNote_recorded hash hinj outDir fs fs₁ n a ha hc hd) hrun
        · exact ih _ hnrest hrun

/-- Claim C1: run-wide attachment consistency.  If the whole run succeeds,
then any two attachments - possibly from different notes - whose names
normalize to the same output filename and whose contents are actually
written (not the sentinel) have byte-identical contents; equivalently,
with differing contents the run aborts with an error. -/
theorem dumpAll_same_path_same_content {H : Type} [DecidableEq H] (hash : FileData → H)
    (hinj : Function.Injective hash) (outDir : Str) (notes : List Note) (fs₀ : FS)
    (n₁ n₂ : Note) (a₁ a₂ : Attachment)
    (hn₁ : n₁ ∈ notes) (ha₁ : a₁ ∈ n₁.attachments)
    (hn₂ : n₂ ∈ notes) (ha₂ : a₂ ∈ n₂.attachments)
    (hpath : normalizeFilename a₁.name = normalizeFilename a₂.name)
    (hc₁ : a₁.content ≠ invalidBuffer) (hc₂ : a₂.content ≠ invalidBuffer) :
    a₁.content = a₂.content ∨ ∃ msg, dumpAll hash outDir fs₀ notes = Except.error msg := by
  rcases hrun : dumpAll hash outDir fs₀ notes with e | fs'
  · exact Or.inr ⟨e, rfl⟩
  · left
    have r₁ := fsLookup_dumpAll_recorded hash hinj outDir notes fs₀ fs' n₁ a₁ hn₁ ha₁ hc₁ hrun
    have r₂ := fsLookup_dumpAll_recorded hash hinj outDir notes fs₀ fs' n₂ a₂ hn₂ ha₂ hc₂ hrun
    rw [hpath] at r₁
    rw [r₂] at r₁
    exact (FileData.bin.inj (Option.some.inj r₁)).symm

theorem dumpAll_same_path_same_content_witness :
    ([1] : Bytes) = [2] ∨
    ∃ msg, dumpAll id (chars "o") []
      [{ title := chars "t", created := chars "c", modified := chars "m",
         tags := [], attachments := [⟨chars "a", [1]⟩, ⟨chars "a", [2]⟩],
         body := chars "b" }] = Except.error msg :=
  dumpAll_same_path_same_content id Function.injective_id (chars "o")
    [{ title := chars "t", created := chars "c", modified := chars "m",
       tags := [], attachments := [⟨chars "a", [1]⟩, ⟨chars "a", [2]⟩],
       body := chars "b" }] []
    { title := chars "t", created := chars "c", modified := chars "m",
      tags := [], attachments := [⟨chars "a", [1]⟩, ⟨chars "a", [2]⟩],
      body := chars "b" }
    { title := chars "t", created := chars "c", modified := chars "m",
      tags := [], attachments := [⟨chars "a", [1]⟩, ⟨chars "a", [2]⟩],
      body := chars "b" }
    ⟨chars "a", [1]⟩ ⟨chars "a", [2]⟩
    (by decide) (by decide) (by decide) (by decide) rfl (by decide) (by decide)

theorem splitLines_append (f : Str) (hf : '\n' ∉ f) (s l : Str) (ls : List Str)
    (h : splitLines s = l :: ls) : splitLines (f ++ s) = (f ++ l) :: ls := by
  induction f with
  | nil => simpa using h
  | cons c f' ih =>
      have hc : c ≠ '\n' := fun hcn => hf (hcn ▸ List.mem_cons_self c f')
      have hf' : '\n' ∉ f' := fun hx => hf (List.mem_cons_of_mem c hx)
      have hih := ih hf'
      simp [splitLines, if_neg hc, hih]

theorem splitLines_single (f : Str) (hf : '\n' ∉ f) : splitLines f = [f] := by
  have h := splitLines_append f hf [] [] [] rfl
  simpa using h

theorem splitLines_joinStr (fields : List Str) (hnl : ∀ f ∈ fields, '\n' ∉ f)
    (hne : fields ≠ []) :
    splitLines (joinStr (chars "\n") fields) = fields := by
  induction fields with
  | nil => cases hne rfl
  | cons s ss ih =>
      cases ss with
      | nil => exact splitLines_single s (hnl s (by simp))
      | cons b t =>
          have hs : '\n' ∉ s := hnl s (by simp)
          have hrest : splitLines (joinStr (chars "\n") (b :: t)) = b :: t :=
            ih (fun f hf => hnl f (List.mem_cons_of_mem s hf)) (by simp)
          rw [joinStr_cons_cons, List.append_assoc]
          have hnlcons : splitLines (chars "\n" ++ joinStr (chars "\n") (b :: t)) =
              [] :: b :: t := by
            show splitLines ('\n' :: joinStr (chars "\n") (b :: t)) = [] :: b :: t
            simp [splitLines, hrest]
          have h := splitLines_append s hs _ _ _ hnlcons
          simpa using h

theorem joinStr_append_single (sep y : Str) (F : List Str) (h : F ≠ []) :
    joinStr sep (F ++ [y]) = joinStr sep F ++ sep ++ y := by
  induction F with
  | nil => cases h rfl
  | cons s ss ih =>
      cases ss with
      | nil => rfl
      | cons b t =>
          have hih := ih (by simp)
          show joinStr sep (s :: ((b :: t) ++ [y])) = _
          rw [show s :: ((b :: t) ++ [y]) = s :: (b :: (t ++ [y])) from rfl,
              joinStr_cons_cons, show (b :: t) ++ [y] = b :: (t ++ [y]) from rfl] at *
          rw [hih]
          simp [List.append_assoc, joinStr_cons_cons]

theorem headerLines (fields : List Str) (hnl : ∀ f ∈ fields, '\n' ∉ f)
    (hne : fields ≠ []) :
    splitLines (chars "---" ++ chars "\n" ++ joinStr (chars "\n") fields ++
      chars "\n" ++ chars "---") = chars "---" :: fields ++ [chars "---"] := by
  have h1 : chars "---" ++ chars "\n" ++ joinStr (chars "\n") fields ++
      chars "\n" ++ chars "---" =
      joinStr (chars "\n") (chars "---" :: (fields ++ [chars "---"])) := by
    cases fields with
    | nil => cases hne rfl
    | cons s ss =>
        rw [show (s :: ss) ++ [chars "---"] = s :: (ss ++ [chars "---"]) from rfl,
            joinStr_cons_cons,
            show s :: (ss ++ [chars "---"]) = (s :: ss) ++ [chars "---"] from rfl,
            joinStr_append_single (chars "\n") (chars "---") (s :: ss) (by simp)]
        simp [List.append_assoc]
  rw [h1, show chars "---" :: fields ++ [chars "---"] =
      chars "---" :: (fields ++ [chars "---"]) from rfl]
  refine splitLines_joinStr _ ?_ (by simp)
  intro f hf
  rcases List.mem_cons.mp hf with h | h
  · subst h
    decide
  · rcases List.mem_append.mp h with h' | h'
    · exact hnl f h'
    · have : f = chars "---" := by simpa using h'
      subst this
      decide

theorem replaceFirst_not_mem (x pat : Char) (rep s : Str) (hrep : x ∉ rep)
    (hs : x ∉ s) : x ∉ replaceFirst pat rep s := by
  induction s with
  | nil => simp [replaceFirst] at hs ⊢
  | cons c rest ih =>
      have hxc : x ≠ c := fun h => hs (h ▸ List.mem_cons_self c rest)
      have hrest : x ∉ rest := fun h => hs (List.mem_cons_of_mem c h)
      intro hmem
      simp only [replaceFirst] at hmem
      by_cases hc : c = pat
      · rw [if_pos hc] at hmem
        rcases List.mem_append.mp hmem with h | h
        · exact hrep h
        · exact hrest h
      · rw [if_neg hc] at hmem
        rcases List.mem_cons.mp hmem with h | h
        · exact hxc h
        · exact ih hrest h

theorem newline_not_mem_normalizeFilename (s : Str) (hs : '\n' ∉ s) :
    '\n' ∉ normalizeFilename s := by
  unfold normalizeFilename
  apply replaceFirst_not_mem _ _ _ _ (by decide)
  apply replaceFirst_not_mem _ _ _ _ (by decide)
  apply replaceFirst_not_mem _ _ _ _ (by decide)
  apply replaceFirst_not_mem _ _ _ _ (by decide)
  exact replaceFirst_not_mem _ _ _ _ (by decide) hs

theorem not_mem_joinStr (x : Char) (sep : Str) (ts : List Str) (hsep : x ∉ sep)
    (hts : ∀ u ∈ ts, x ∉ u) : x ∉ joinStr sep ts := by
  induction ts with
  | nil => simp [joinStr]
  | cons s ss ih =>
      cases ss with
      | nil => exact hts s (by simp)
      | cons b t =>
          rw [joinStr_cons_cons]
          intro hmem
          rcases List.mem_append.mp hmem with h | h
          · rcases List.mem_append.mp h with h' | h'
            · exact hts s (by simp) h'
            · exact hsep h'
          · exact ih (fun u hu => hts u (List.mem_cons_of_mem s hu)) h

/-- Claim C8: the synthesized header has a line with prefix `attachments:`
exactly when the note has at least one attachment (with none, the line and
its line break are absent altogether), and with attachments the line lists
the `normalizeFilename`-normalized attachment names. -/
theorem buildHeader_attachments_line_iff (note : Note)
    (htag : ∀ t ∈ note.tags, ',' ∉ t)
    (hnlt : '\n' ∉ note.title) (hnlc : '\n' ∉ note.created)
    (hnlm : '\n' ∉ note.modified)
    (hnltags : ∀ t ∈ note.tags, '\n' ∉ t)
    (hnlatt : ∀ a ∈ note.attachments, '\n' ∉ a.name) :
    ∃ hdr, buildHeader note = Except.ok hdr ∧
      ((∃ l ∈ splitLines hdr, chars "attachments:" <+: l) ↔ note.attachments ≠ []) ∧
      (note.attachments ≠ [] →
        (chars "attachments: [" ++
         joinStr (chars ", ") (note.attachments.map (fun a => normalizeFilename a.name)) ++
         chars "]") ∈ splitLines hdr) := by
  have hfmt : formatTags note.tags =
      Except.ok (chars "[" ++ joinStr (chars ", ") note.tags ++ chars "]") := by
    have hany : note.tags.any (fun tag => ',' ∈ tag) = false := by
      rw [List.any_eq_false]
      intro t ht
      simpa using htag t ht
    simp [formatTags, hany]
  have hnl1 : '\n' ∉ chars "title: " ++ note.title := by
    intro h
    rcases List.mem_append.mp h with h' | h'
    · exact absurd h' (by decide)
    · exact hnlt h'
  have hnl2 : '\n' ∉ chars "created: '" ++ note.created ++ chars "'" := by
    intro h
    rcases List.mem_append.mp h with h' | h'
    · rcases List.mem_append.mp h' with h'' | h''
      · exact absurd h'' (by decide)
      · exact hnlc h''
    · exact absurd h' (by decide)
  have hnl3 : '\n' ∉ chars "modified: '" ++ note.modified ++ chars "'" := by
    intro h
    rcases List.mem_append.mp h with h' | h'
    · rcases List.mem_append.mp h' with h'' | h''
      · exact absurd h'' (by decide)
      · exact hnlm h''
    · exact absurd h' (by decide)
  have hnl4 : '\n' ∉ chars "tags: " ++
      (chars "[" ++ joinStr (chars ", ") note.tags ++ chars "]") := by
    intro h
    rcases List.mem_append.mp h with h' | h'
    · exact absurd h' (by decide)
    · rcases List.mem_append.mp h' with h'' | h''
      · rcases List.mem_append.mp h'' with h3 | h3
        · exact absurd h3 (by decide)
        · exact not_mem_joinStr '\n' (chars ", ") note.tags (by decide) hnltags h3
      · exact absurd h'' (by decide)
  have hnl5 : '\n' ∉ chars "attachments: [" ++
      joinStr (chars ", ") (note.attachments.map (fun a => normalizeFilename a.name)) ++
      chars "]" := by
    intro h
    rcases List.mem_append.mp h with h' | h'
    · rcases List.mem_append.mp h' with h'' | h''
      · exact absurd h'' (by decide)
      · refine not_mem_joinStr '\n' (chars ", ") _ (by decide) ?_ h''
        intro u hu
        rcases List.mem_map.mp hu with ⟨a, ha, rfl⟩
        exact newline_not_mem_normalizeFilename a.name (hnlatt a ha)
    · exact absurd h' (by decide)
  by_cases hatts : note.attachments = []
  · refine ⟨chars "---" ++ chars "\n" ++ joinStr (chars "\n")
        [chars "title: " ++ note.title,
         chars "created: '" ++ note.created ++ chars "'",
         chars "modified: '" ++ note.modified ++ chars "'",
         chars "tags: " ++ (chars "[" ++ joinStr (chars ", ") note.tags ++ chars "]")] ++
        chars "\n" ++ chars "---", ?_, ?_, ?_⟩
    · simp [buildHeader, hfmt, hatts]
    · rw [headerLines _ (by
        intro f hf
        simp only [List.mem_cons, List.not_mem_nil, or_false] at hf
        rcases hf with hf | hf | hf | hf
        · exact hf ▸ hnl1
        · exact hf ▸ hnl2
        · exact hf ▸ hnl3
        · exact hf ▸ hnl4) (by simp)]
      constructor
      · rintro ⟨l, hl, u, hu⟩
        exfalso
        have hla : l.head? = some 'a' := by
          rw [← hu]
          rfl
        simp only [List.cons_append, List.nil_append, List.mem_cons,
          List.not_mem_nil, or_false] at hl
        rcases hl with hl | hl | hl | hl | hl | hl
        · rw [hl] at hla
          exact absurd hla (by decide)
        · rw [hl] at hla
          rw [show (chars "title: " ++ note.title).head? = some 't' from rfl] at hla
          exact absurd hla (by decide)
        · rw [hl] at hla
          rw [show (chars "created: '" ++ note.created ++ chars "'").head? = some 'c'
            from rfl] at hla
          exact absurd hla (by decide)
        · rw [hl] at hla
          rw [show (chars "modified: '" ++ note.modified ++ chars "'").head? = some 'm'
            from rfl] at hla
          exact absurd hla (by decide)
        · rw [hl] at hla
          rw [show (chars "tags: " ++
            (chars "[" ++ joinStr (chars ", ") note.tags ++ chars "]")).head? = some 't'
            from rfl] at hla
          exact absurd hla (by decide)
        · rw [hl] at hla
          exact absurd hla (by decide)
      · intro h
        exact absurd hatts h
    · intro h
      exact absurd hatts h
  · refine ⟨chars "---" ++ chars "\n" ++ joinStr (chars "\n")
        [chars "title: " ++ note.title,
         chars "created: '" ++ note.created ++ chars "'",
         chars "modified: '" ++ note.modified ++ chars "'",
         chars "tags: " ++ (chars "[" ++ joinStr (chars ", ") note.tags ++ chars "]"),
         chars "attachments: [" ++
           joinStr (chars ", ") (note.attachments.map (fun a => normalizeFilename a.name)) ++
           chars "]"] ++
        chars "\n" ++ chars "---", ?_, ?_, ?_⟩
    · simp [buildHeader, hfmt, List.length_eq_zero, hatts]
    · rw [headerLines _ (by
        intro f hf
        simp only [List.mem_cons, List.not_mem_nil, or_false] at hf
        rcases hf with hf | hf | hf | hf | hf
        · exact hf ▸ hnl1
        · exact hf ▸ hnl2
        · exact hf ▸ hnl3
        · exact hf ▸ hnl4
        · exact hf ▸ hnl5) (by simp)]
      constructor
      · intro _
        exact hatts
      · intro _
        refine ⟨chars "attachments: [" ++
          joinStr (chars ", ") (note.attachments.map (fun a => normalizeFilename a.name)) ++
          chars "]", by simp, ?_⟩
        refine ⟨chars " [" ++
          joinStr (chars ", ") (note.attachments.map (fun a => normalizeFilename a.name)) ++
          chars "]", ?_⟩
        rw [show chars "attachments: [" =
          chars "attachments:" ++ chars " [" from rfl]
        simp [List.append_assoc]
    · intro _
      rw [headerLines _ (by
        intro f hf
        simp only [List.mem_cons, List.not_mem_nil, or_false] at hf
        rcases hf with hf | hf | hf | hf | hf
        · exact hf ▸ hnl1
        · exact hf ▸ hnl2
        · exact hf ▸ hnl3
        · exact hf ▸ hnl4
        · exact hf ▸ hnl5) (by simp)]
      simp

theorem buildHeader_attachments_line_iff_witness :
    ∃ hdr, buildHeader
        { title := chars "T", created := chars "C", modified := chars "M",
          tags := [chars "x"], attachments := [⟨chars "a,b.png", [1]⟩],
          body := chars "B" } = Except.ok hdr ∧
      ((∃ l ∈ splitLines hdr, chars "attachments:" <+: l) ↔
        ({ title := chars "T", created := chars "C", modified := chars "M",
           tags := [chars "x"], attachments := [⟨chars "a,b.png", [1]⟩],
           body := chars "B" } : Note).attachments ≠ []) ∧
      (({ title := chars "T", created := chars "C", modified := chars "M",
          tags := [chars "x"], attachments := [⟨chars "a,b.png", [1]⟩],
          body := chars "B" } : Note).attachments ≠ [] →
        (chars "attachments: [" ++
         joinStr (chars ", ")
           (({ title := chars "T", created := chars "C", modified := chars "M",
               tags := [chars "x"], attachments := [⟨chars "a,b.png", [1]⟩],
               body := chars "B" } : Note).attachments.map
             (fun a => normalizeFilename a.name)) ++
         chars "]") ∈ splitLines hdr) :=
  buildHeader_attachments_line_iff
    { title := chars "T", created := chars "C", modified := chars "M",
      tags := [chars "x"], attachments := [⟨chars "a,b.png", [1]⟩],
      body := chars "B" }
    (by decide) (by decide) (by decide) (by decide) (by decide) (by decide)

theorem pathJoin_right_inj (d x y : Str) (h : pathJoin d x = pathJoin d y) : x = y :=
  List.append_cancel_left h

theorem fsLookup_materializeAll_none {H : Type} [DecidableEq H] (hash : FileData → H)
    (attachDir : Str) (atts : List Attachment) (fs fs' : FS) (q : Str)
    (hq : fsLookup fs q = none)
    (hall : ∀ b ∈ atts,
      pathJoin attachDir (normalizeFilename b.name) = q → b.content = invalidBuffer)
    (hrun : materializeAll hash attachDir fs atts = Except.ok fs') :
    fsLookup fs' q = none := by
  induction atts generalizing fs with
  | nil =>
      simp only [materializeAll, Except.ok.injEq] at hrun
      exact hrun ▸ hq
  | cons b rest ih =>
      simp only [materializeAll] at hrun
      have hall' : ∀ c ∈ rest,
          pathJoin attachDir (normalizeFilename c.name) = q → c.content = invalidBuffer :=
        fun c hc => hall c (List.mem_cons_of_mem b hc)
      by_cases hb : b.content = invalidBuffer
      · rw [show materialize hash fs (pathJoin attachDir (normalizeFilename b.name)) b.content
            = (MatResult.skip, fs) by simp [materialize, hb]] at hrun
        exact ih fs hq hall' hrun
      · have hbq : pathJoin attachDir (normalizeFilename b.name) ≠ q :=
          fun hpq => hb (hall b (List.mem_cons_self b rest) hpq)
        rcases he : fsLookup fs (pathJoin attachDir (normalizeFilename b.name)) with _ | old
        · rw [show materialize hash fs (pathJoin attachDir (normalizeFilename b.name)) b.content
              = (MatResult.write, fsWrite fs (pathJoin attachDir (normalizeFilename b.name))
                  (FileData.bin b.content)) by simp [materialize, hb, he]] at hrun
          exact ih _ (by rw [fsLookup_write_ne _ _ _ _ hbq]; exact hq) hall' hrun
        · by_cases hh : hash (FileData.bin b.content) = hash old
          · rw [show materialize hash fs (pathJoin attachDir (normalizeFilename b.name)) b.content
                = (MatResult.write, fsWrite fs (pathJoin attachDir (normalizeFilename b.name))
                    (FileData.bin b.content)) by simp [materialize, hb, he, hh]] at hrun
            exact ih _ (by rw [fsLookup_write_ne _ _ _ _ hbq]; exact hq) hall' hrun
          · rw [show materialize hash fs (pathJoin attachDir (normalizeFilename b.name)) b.content
                = (MatResult.conflict (conflictMessage (pathJoin attachDir
                    (normalizeFilename b.name))), fs)
                by simp [materialize, hb, he, hh]] at hrun
            cases hrun

/-- Claim C10: the header's attachments line lists the normalized name of
every attachment of the note, in order, including a sentinel-content
attachment that is never written into the attachments directory; so the
note file can reference a filename the run did not create. -/
theorem header_lists_unwritten_sentinel {H : Type} [DecidableEq H] (hash : FileData → H)
    (outDir : Str) (fs₀ fs' : FS) (note : Note) (a : Attachment)
    (ha : a ∈ note.attachments) (hsent : a.content = invalidBuffer)
    (hother : ∀ b ∈ note.attachments,
      normalizeFilename b.name = normalizeFilename a.name → b.content = invalidBuffer)
    (hfs₀ : fsLookup fs₀ (pathJoin (pathJoin outDir (chars "attachments"))
      (normalizeFilename a.name)) = none)
    (hrun : dumpNote hash outDir fs₀ note = Except.ok fs') :
    fsLookup fs' (pathJoin (pathJoin outDir (chars "attachments"))
      (normalizeFilename a.name)) = none ∧
    ∃ content, fsLookup fs' (pathJoin (pathJoin outDir (chars "notes"))
        (note.title ++ chars ".md")) = some (FileData.text content) ∧
      (chars "attachments: [" ++
       joinStr (chars ", ") (note.attachments.map (fun b => normalizeFilename b.name)) ++
       chars "]") <:+: content := by
  unfold dumpNote at hrun
  rcases hm : materializeAll hash (pathJoin outDir (chars "attachments")) fs₀ note.attachments
      with e | fs₁
  · rw [hm] at hrun
    cases hrun
  · rw [hm] at hrun
    rcases hh : buildHeader note with e | header
    · rw [hh] at hrun
      cases hrun
    · rw [hh] at hrun
      cases hrun
      constructor
      · rw [fsLookup_write_ne _ _ _ _
          (fun hp => attachments_notes_paths_ne outDir (normalizeFilename a.name) _ hp.symm)]
        exact fsLookup_materializeAll_none hash _ _ fs₀ fs₁ _ hfs₀
          (fun b hb hpb => hother b hb (pathJoin_right_inj _ _ _ hpb)) hm
      · refine ⟨header ++ chars "\n\n" ++ note.body, fsLookup_write_self _ _ _, ?_⟩
        have hne : note.attachments ≠ [] := List.ne_nil_of_mem ha
        rcases hf : formatTags note.tags with e | tagsStr
        · have hbuild : buildHeader note = Except.error e := by simp [buildHeader, hf]
          rw [hbuild] at hh
          cases hh
        · have hbuild : buildHeader note = Except.ok
              (chars "---" ++ chars "\n" ++ joinStr (chars "\n")
                [chars "title: " ++ note.title,
                 chars "created: '" ++ note.created ++ chars "'",
                 chars "modified: '" ++ note.modified ++ chars "'",
                 chars "tags: " ++ tagsStr,
                 chars "attachments: [" ++
                   joinStr (chars ", ")
                     (note.attachments.map (fun b => normalizeFilename b.name)) ++
                   chars "]"] ++
               chars "\n" ++ chars "---") := by
            simp [buildHeader, hf, List.length_eq_zero, hne]
          rw [hbuild] at hh
          have hheader := Except.ok.inj hh
          have h1 : (chars "attachments: [" ++
              joinStr (chars ", ") (note.attachments.map (fun b => normalizeFilename b.name)) ++
              chars "]") ∈
              [chars "title: " ++ note.title,
               chars "created: '" ++ note.created ++ chars "'",
               chars "modified: '" ++ note.modified ++ chars "'",
               chars "tags: " ++ tagsStr,
               chars "attachments: [" ++
                 joinStr (chars ", ")
                   (note.attachments.map (fun b => normalizeFilename b.name)) ++
                 chars "]"] := by simp
          have h2 := mem_joinStr_within (chars "\n") _ _ h1
          refine h2.trans ?_
          rw [← hheader]
          exact ⟨chars "---" ++ chars "\n",
            chars "\n" ++ chars "---" ++ (chars "\n\n" ++ note.body),
            by simp [List.append_assoc]⟩

theorem header_lists_unwritten_sentinel_witness :
    fsLookup [(chars "o/notes/t.md", FileData.text
        (chars "---\ntitle: t\ncreated: 'c'\nmodified: 'm'\ntags: []\nattachments: [a]\n---\n\nb"))]
      (pathJoin (pathJoin (chars "o") (chars "attachments")) (normalizeFilename (chars "a"))) =
      none ∧
    ∃ content, fsLookup [(chars "o/notes/t.md", FileData.text
        (chars "---\ntitle: t\ncreated: 'c'\nmodified: 'm'\ntags: []\nattachments: [a]\n---\n\nb"))]
        (pathJoin (pathJoin (chars "o") (chars "notes")) (chars "t" ++ chars ".md")) =
        some (FileData.text content) ∧
      (chars "attachments: [" ++
       joinStr (chars ", ")
         (([⟨chars "a", invalidBuffer⟩] : List Attachment).map
           (fun b => normalizeFilename b.name)) ++
       chars "]") <:+: content :=
  header_lists_unwritten_sentinel id (chars "o") []
    [(chars "o/notes/t.md", FileData.text
      (chars "---\ntitle: t\ncreated: 'c'\nmodified: 'm'\ntags: []\nattachments: [a]\n---\n\nb"))]
    { title := chars "t", created := chars "c", modified := chars "m",
      tags := [], attachments := [⟨chars "a", invalidBuffer⟩], body := chars "b" }
    ⟨chars "a", invalidBuffer⟩
    (by decide) rfl (by decide) rfl rfl
